import Mathlib

/-!
A verification development for the `chkdomain` program: a WHOIS-based
domain-availability checker.  The repository contains a flagship source file
(`chkdomain.go`) together with near-duplicate earlier variants of the same
program; where variants differ the definitions below carry the variant in
their name or doc comment.

Strings are modelled as `List Char` (Go strings are byte strings; all inputs
relevant to the verified properties are ASCII).  Network I/O is modelled by
explicit oracles: a connection is a list of read events, each carrying the
bytes returned by one `conn.Read` call and the accompanying error value.
-/

namespace Chkdomain

/-! ## Character classes

Go's regexes in this program use only ASCII character classes, and Go's
`strings.ToLower` agrees with `Char.toLower` on ASCII (non-ASCII simple case
mappings never arise in the verified properties). -/

/-- Class `[a-zA-Z0-9]` of `domainRE`. -/
def isAlnumCh (c : Char) : Bool := c.isAlphanum

/-- Class `[a-zA-Z]`, the TLD character class of `domainRE`. -/
def isAlphaCh (c : Char) : Bool := c.isAlpha

/-- Class `[a-zA-Z0-9-\.]`, the middle character class of `domainRE`
(note that it contains the dot). -/
def isMidCh (c : Char) : Bool := c.isAlphanum || c == '-' || c == '.'

/-- RE2 word characters `[0-9A-Za-z_]`, used by the `\b` anchors of
`availableRE`. -/
def isWordCh (c : Char) : Bool := c.isAlphanum || c == '_'

/-! ## Go `strings` helpers used by the program -/

/-- Go `strings.Split`-style splitting at every character satisfying `p`:
`n` separators yield `n + 1` pieces, and the empty string yields `[[]]`. -/
def splitOnPred (p : Char → Bool) : List Char → List (List Char)
  | [] => [[]]
  | c :: rest =>
    if p c then [] :: splitOnPred p rest
    else
      match splitOnPred p rest with
      | [] => [[c]]
      | piece :: more => (c :: piece) :: more

/-- Go `strings.Split(s, sep)` for a one-character separator. -/
def splitOnChar (sep : Char) (s : List Char) : List (List Char) :=
  splitOnPred (fun c => c == sep) s

/-- Go `strings.TrimRight(s, cutset)` for a one-character cutset. -/
def trimRightChar (cut : Char) (s : List Char) : List Char :=
  (s.reverse.dropWhile (fun c => c == cut)).reverse

/-- Go `strings.Trim(s, cutset)` for a one-character cutset. -/
def trimChar (cut : Char) (s : List Char) : List Char :=
  (((s.dropWhile (fun c => c == cut)).reverse.dropWhile (fun c => c == cut))).reverse

/-! ## WHOIS server resolution (`getWhoisServer`) -/

/-- Function `getWhoisServer` from the source: split the domain on `.`, take the last
segment as the TLD — or the last two segments joined by `.` when there are
more than two segments — and append `".whois-servers.net:43"`.  The Go
indexing `segments[len(segments)-1]` / `segments[len(segments)-2]` is
rendered with `List.getD`. -/
def getWhoisServer (domain : List Char) : List Char :=
  let segments := splitOnChar '.' domain
  let tld := segments.getD (segments.length - 1) []
  let tld2 :=
    if 2 < segments.length then
      segments.getD (segments.length - 2) [] ++ '.' :: tld
    else tld
  tld2 ++ (".whois-servers.net:43").data

/-- Spec-side description of the resolver's effective TLD: the last label,
or the last two labels joined by a dot when the domain has more than two
labels. -/
def effectiveTld (labels : List (List Char)) : List Char :=
  if 2 < labels.length then
    labels.reverse.getD 1 [] ++ '.' :: labels.reverse.getD 0 []
  else labels.reverse.getD 0 []

/-- Join labels with `.` separators (the inverse of `splitOnChar '.'` on
dot-free labels). -/
def joinDots : List (List Char) → List Char
  | [] => []
  | [l] => l
  | l :: ls => l ++ '.' :: joinDots ls

/-! ## Domain validation (`isDomainValid` / `domainRE`)

`domainRE` is `^[a-zA-Z0-9](?:[a-zA-Z0-9-\.]{0,61}[a-zA-Z0-9])?\.[a-zA-Z]{2,}$`.
Because everything after the mandatory `\.` is drawn from `[a-zA-Z]` (which
excludes the dot) and anchored at `$`, the mandatory `\.` can only ever match
the *last* dot of the subject string.  The matcher below therefore splits the
string at its last dot and checks the prefix against
`[a-zA-Z0-9](?:[a-zA-Z0-9-\.]{0,61}[a-zA-Z0-9])?` and the suffix against
`[a-zA-Z]{2,}`. -/

/-- Does `p` match `[a-zA-Z0-9](?:[a-zA-Z0-9-\.]{0,61}[a-zA-Z0-9])?`
exactly?  A single alphanumeric character, or an alphanumeric character
followed by at most 61 characters from the middle class and a final
alphanumeric character. -/
def prefixOK : List Char → Bool
  | [] => false
  | c :: rest =>
    isAlnumCh c &&
      (rest.isEmpty ||
        (decide (rest.length ≤ 62) && rest.dropLast.all isMidCh &&
          isAlnumCh (rest.getLastD ' ')))

/-- Does `t` match `[a-zA-Z]{2,}` exactly? -/
def tldOK (t : List Char) : Bool :=
  decide (2 ≤ t.length) && t.all isAlphaCh

/-- Function `isDomainValid` from the source: full-string match of `domainRE`. -/
def isDomainValid (domain : List Char) : Bool :=
  let r := domain.reverse
  let tldRev := r.takeWhile (fun c => !(c == '.'))
  match r.dropWhile (fun c => !(c == '.')) with
  | [] => false
  | _ :: preRev => prefixOK preRev.reverse && tldOK tldRev.reverse

/-- Modelled from the spec's words (for comparison with `isDomainValid`):
"one or more labels separated by dots, each label 1–63 characters drawn from
alphanumerics and hyphens (not starting or ending with a hyphen), terminated
by a final label of at least 2 alphabetic characters". -/
def labelOK (l : List Char) : Bool :=
  decide (1 ≤ l.length) && decide (l.length ≤ 63) &&
    l.all (fun c => c.isAlphanum || c == '-') &&
    !(l.headD ' ' == '-') && !(l.getLastD ' ' == '-')

/-- Modelled from the spec's words: the label-based validity predicate that
the specification ascribes to `isDomainValid`. -/
def domainSpecValid (s : List Char) : Bool :=
  let labels := splitOnChar '.' s
  decide (2 ≤ labels.length) && labels.dropLast.all labelOK &&
    tldOK (labels.getLastD [])

/-! ## Availability classification (`isDomainAvailable` / `availableRE`)

`availableRE` is `\b(is not registered|is available|no match for|not found)\b`,
applied by `FindString` to the lower-cased response; the result is compared
with `""`.  Since every phrase is non-empty, `FindString ≠ ""` holds iff some
phrase occurs somewhere in the text with RE2 word boundaries on both sides. -/

/-- Does the pattern `p` occur at the very start of `s`, with the character
immediately after the occurrence (if any) being a non-word character
(the closing `\b`)? -/
def matchHere : List Char → List Char → Bool
  | [], [] => true
  | c :: _, [] => !isWordCh c
  | [], _ :: _ => false
  | c :: cs, q :: qs => c == q && matchHere cs qs

/-- Does the pattern `p` occur anywhere in `s` with word boundaries on both
sides?  `prevW` records whether the character immediately before the current
position is a word character (the opening `\b`). -/
def wordSearch (p : List Char) : Bool → List Char → Bool
  | prevW, [] => !prevW && matchHere [] p
  | prevW, c :: cs => (!prevW && matchHere (c :: cs) p) || wordSearch p (isWordCh c) cs

/-- The four alternatives of `availableRE`. -/
def availablePhrases : List (List Char) :=
  [("is not registered").data, ("is available").data,
   ("no match for").data, ("not found").data]

/-- Function `isDomainAvailable` from the source:
`availableRE.FindString(strings.ToLower(whoisText)) != ""`. -/
def isDomainAvailable (whoisText : List Char) : Bool :=
  availablePhrases.any (fun p => wordSearch p false (whoisText.map Char.toLower))

/-! ## The WHOIS client (`whois`)

A TCP connection is modelled by the sequence of outcomes of successive
`conn.Read(buf)` calls: each event carries the bytes placed in `buf` and the
error value returned alongside them (`nil`, `io.EOF`, or some other error,
the latter carrying its message). -/

/-- The error component of one `conn.Read` result. -/
inductive RdErr where
  | ok                       -- `nil`
  | eof                      -- `io.EOF`
  | fail (msg : List Char)   -- any other error
  deriving DecidableEq

/-- Is this error value `io.EOF`? -/
def RdErr.isEOF : RdErr → Bool
  | .eof => true
  | _ => false

/-- The error as Go sees it: `none` models the `nil` error and `io.EOF`
yields `none` too only where the code has already branched it away. -/
def RdErr.toMsg : RdErr → Option (List Char)
  | .fail m => some m
  | _ => none

/-- One `conn.Read(buf)` outcome: the bytes read and the error returned. -/
structure ReadEv where
  chunk : List Char
  err : RdErr
  deriving DecidableEq

/-- The read loop of `whois` (chkdomain.go):
```
for {
    if numBytes, readErr := conn.Read(buf); numBytes == 0 && readErr != io.EOF {
        return "", readErr
    } else {
        res = append(res, buf[0:numBytes]...)
        if readErr == io.EOF { break }
    }
}
return string(res), nil
```
The result pairs the returned string with the returned error value
(`none` = `nil`).  `none` at the outer `Option` models a connection whose
event list is exhausted before the loop exits, i.e. a read that would block
forever. -/
def connReadLoop : List Char → List ReadEv → Option (List Char × Option (List Char))
  | _, [] => none
  | acc, ev :: rest =>
    if ev.chunk.isEmpty && !ev.err.isEOF then some ([], ev.err.toMsg)
    else
      let acc2 := acc ++ ev.chunk
      if ev.err.isEOF then some (acc2, none) else connReadLoop acc2 rest

/-- Outcome of dialing the WHOIS server and writing the request: the dial
fails, the write fails, or a connection is obtained whose reads produce the
given events.  The stub responder sees the queried domain because the client
writes `domain + "\r\n"` on the wire before reading. -/
inductive NetOutcome where
  | dialFail (msg : List Char)
  | writeFail (msg : List Char)
  | conn (events : List ReadEv)

/-- Function `whois` from chkdomain.go, with the network abstracted by `net` which
maps the dialed server address and the written domain to the connection's
behaviour.  Error message texts are abbreviated (their exact formatting is
irrelevant to the verified properties). -/
def whois (net : List Char → List Char → NetOutcome) (domain : List Char) :
    Option (List Char × Option (List Char)) :=
  if !isDomainValid domain then
    some ([], some (("invalid domain: ").data ++ domain))
  else
    match net (getWhoisServer domain) domain with
    | .dialFail m => some ([], some (("error connecting: ").data ++ m))
    | .writeFail m => some ([], some m)
    | .conn evs => connReadLoop [] evs

/-! ## Results, jobs and the scheduler -/

/-- The result of a whois check for a single domain (struct `Result`);
`err` carries the error message (`none` = `nil`). -/
structure Result where
  domain : List Char
  output : List Char
  available : Bool
  err : Option (List Char)
  deriving DecidableEq

/-- Method `Job.Run` from chkdomain.go, with the whole `whois` call abstracted by
the oracle `g` (first component: the returned string; second: the returned
error).  This variant always produces a result for its domain. -/
def jobRun (g : List Char → List Char × Option (List Char)) (d : List Char) : Result :=
  match (g d).2 with
  | some m => { domain := d, output := [], available := false, err := some m }
  | none => { domain := d, output := (g d).1,
              available := isDomainAvailable (g d).1, err := none }

/-- Method `Job.Run` from chkdomain.go composed with the `whois` model itself
(`none` when the connection's read events are exhausted without the loop
exiting, i.e. the job would block). -/
def jobRunWhois (net : List Char → List Char → NetOutcome) (d : List Char) :
    Option Result :=
  (whois net d).map fun res =>
    match res.2 with
    | some m => { domain := d, output := [], available := false, err := some m }
    | none => { domain := d, output := res.1,
                available := isDomainAvailable res.1, err := none }

/-- The network as seen by the `part_000` variant's `Job.Run`: either the
dial fails, or a connection is obtained whose read loop (which breaks on any
error, including non-EOF ones) accumulates `data`. -/
inductive P0Net where
  | dialFail
  | conn (data : List Char)

/-- Method `Job.Run` from the `part_000` variant:
```
if !isDomainValid(domain) { result.err = ... } else {
    conn, err := net.Dial("tcp", getWhoisServer(domain))
    if err != nil { result.err = err; return }   // returns WITHOUT sending
    ... read loop ...
}
job.results <- result
```
`none` models the dial-error path, which returns from `Run` before the
`job.results <- result` send. -/
def jobRunP0 (net : List Char → P0Net) (d : List Char) : Option Result :=
  if !isDomainValid d then
    some { domain := d, output := [], available := false,
           err := some ("invalid domain").data }
  else
    match net d with
    | .dialFail => none
    | .conn data =>
      some { domain := d, output := data,
             available := isDomainAvailable data, err := none }

/-- Scheduler state: the input domains whose jobs have not yet been executed,
and the multiset of results sent to the results channel so far.  The multiset
abstracts the completion order of concurrent jobs, which the program leaves
unspecified. -/
structure SchedState where
  pending : List (List Char)
  delivered : Multiset Result

/-- The results a job-run outcome contributes to the results channel. -/
def optResult : Option Result → Multiset Result
  | none => 0
  | some r => {r}

/-- One scheduler step: some worker takes any not-yet-executed domain, runs
its job to completion, and the job sends its result (if the run reaches the
send).  Allowing the step to pick an arbitrary pending domain over-approximates
every interleaving of `makeJobs` + the `runJobs` workers. -/
inductive SchedStep (run : List Char → Option Result) : SchedState → SchedState → Prop
  | take (l1 : List (List Char)) (d : List Char) (l2 : List (List Char))
      (rs : Multiset Result) :
      SchedStep run ⟨l1 ++ d :: l2, rs⟩ ⟨l1 ++ l2, rs + optResult (run d)⟩

/-! ## The result reporter (`processResults`) -/

/-- The stdout lines `processResults` prints for one result in non-debug
mode (the debug branch additionally prints wall-clock timestamps and is not
modelled): `"%s: %s\n"` with domain and error on failure, the bare domain on
an available success, nothing on an unavailable success. -/
def resultLines (r : Result) : List (List Char) :=
  match r.err with
  | some m => [r.domain ++ (": ").data ++ m]
  | none => if r.available then [r.domain] else []

/-- Function `processResults` (chkdomain.go, debug=false): the stdout lines printed
for a stream of results, in arrival order. -/
def processResults (rs : List Result) : List (List Char) :=
  rs.flatMap resultLines

/-! ## Reading domains from standard input -/

/-- The words the `readWords` loop body extracts from one line (the line
still carrying its trailing newline, if any):
`strings.Split(strings.TrimRight(line, "\n"), " ")`, each word trimmed of
spaces and dropped if empty. -/
def lineWords (line : List Char) : List (List Char) :=
  ((splitOnChar ' ' (trimRightChar '\n' line)).map (trimChar ' ')).filter
    (fun w => !w.isEmpty)

/-- The `readWords` loop (chkdomain.go, second variant), processing the
remaining stdin bytes; `lineAcc` holds the bytes of the current line already
consumed by the pending `bio.ReadString('\n')` call.  When the input is
exhausted `ReadString` returns the partial line together with `io.EOF`, whose
words are still collected before the loop breaks. -/
def readWordsAux (lineAcc : List Char) : List Char → List (List Char)
  | [] => lineWords lineAcc
  | c :: rest =>
    if c = '\n' then lineWords (lineAcc ++ [c]) ++ readWordsAux [] rest
    else readWordsAux (lineAcc ++ [c]) rest

/-- Function `readWords` from chkdomain.go (second variant) on a stdin stream that
ends in a clean EOF. -/
def readWords (input : List Char) : List (List Char) :=
  readWordsAux [] input

/-- Modelled from the spec's words: "whitespace/newline-delimited tokens read
from standard input until end-of-stream" — the maximal non-empty runs of
characters that are neither a space nor a newline. -/
def wsTokens (input : List Char) : List (List Char) :=
  (splitOnPred (fun c => c == ' ' || c == '\n') input).filter (fun w => !w.isEmpty)

/-- The `readLines` loop (chkdomain.go, first variant), processing the
remaining stdin bytes; `lineAcc` holds the bytes of the current line so far,
in reverse.  When `bio.ReadString('\n')` hits end-of-stream the loop breaks
immediately, discarding the partial line; otherwise the line is appended with
its trailing newline stripped (`line[:len(line)-1]`). -/
def readLinesAux (lineAcc : List Char) : List Char → List (List Char)
  | [] => []
  | c :: rest =>
    if c = '\n' then lineAcc.reverse :: readLinesAux [] rest
    else readLinesAux (c :: lineAcc) rest

/-- Function `readLines` from chkdomain.go (first variant) on a stdin stream that ends
in a clean EOF. -/
def readLines (input : List Char) : List (List Char) :=
  readLinesAux [] input

/-! ## `main`: argument handling and exit codes -/

/-- The pre-network outcome of `main`: either the process exits with the
given code before any lookup is attempted, or it proceeds to the lookup
pipeline with the given domain list. -/
inductive PreOutcome where
  | exitCode (code : Nat)
  | proceed (domains : List (List Char))
  deriving DecidableEq

/-- Go `flag.Parse` restricted to the flag set of chkdomain.go's first
variant (`-debug`, `-help`, both boolean; `=value` forms not modelled):
returns the parsed `(debug, help)` values and the residual arguments, or
`none` on an unrecognized flag (with `flag.ExitOnError` the process then
exits with code 2).  A bare `-` or any argument not starting with `-`
terminates flag parsing and remains in the residual arguments; `--` also
terminates it but is consumed. -/
def parseFlags : List (List Char) → Bool → Bool → Option (Bool × Bool × List (List Char))
  | [], d, h => some (d, h, [])
  | a :: rest, d, h =>
    if a = ("--").data then some (d, h, rest)
    else if a = ("-debug").data ∨ a = ("--debug").data then parseFlags rest true h
    else if a = ("-help").data ∨ a = ("--help").data then parseFlags rest d true
    else if 2 ≤ a.length ∧ a.headD ' ' = '-' then none
    else some (d, h, a :: rest)

/-- The pre-network phase of `main` (chkdomain.go, first variant): usage with
exit 1 when no arguments are given; flag parsing (unknown flag exits 2,
`--help` exits 0 via `usage(0)`); when the sole residual argument is `-`,
domains come from stdin, whose read outcome is `stdin` (a read failure exits
1). -/
def mainPreChk (args : List (List Char))
    (stdin : Except (List Char) (List (List Char))) : PreOutcome :=
  if args.isEmpty then .exitCode 1
  else
    match parseFlags args false false with
    | none => .exitCode 2
    | some (_, help, rest) =>
      if help then .exitCode 0
      else if rest.length = 1 ∧ rest.headD [] = ("-").data then
        match stdin with
        | .error _ => .exitCode 1
        | .ok ds => .proceed ds
      else .proceed rest

/-- Function `main` (chkdomain.go, first variant) end to end: the exit code and the
stdout lines of the result reporter.  When the pre-network phase proceeds,
the pipeline runs every job and the process falls off the end of `main`,
exiting 0 whatever the individual results were. -/
def mainRunChk (g : List Char → List Char × Option (List Char))
    (args : List (List Char)) (stdin : Except (List Char) (List (List Char))) :
    Nat × List (List Char) :=
  match mainPreChk args stdin with
  | .exitCode c => (c, [])
  | .proceed ds => (0, processResults (ds.map (jobRun g)))

/-! ## The end-to-end stub scenario from the spec -/

/-- The stub WHOIS responder of the spec's end-to-end scenario: it reports
"no match for" only for `uqbar.io` and `kjczr.com`, and registration data
for every other queried domain; every connection delivers its whole response
in one read that also signals end-of-stream. -/
def stubNet (_server domain : List Char) : NetOutcome :=
  if domain = ("uqbar.io").data ∨ domain = ("kjczr.com").data then
    .conn [⟨("No match for ").data ++ domain, .eof⟩]
  else
    .conn [⟨("Domain Name: example\nRegistrar: Example").data, .eof⟩]

/-- The input batch of the spec's end-to-end scenario. -/
def scenarioDomains : List (List Char) :=
  [("tlon.com").data, ("uqbar.io").data, ("kjczr.com").data, ("google.com").data]

/-- The pre-network phase of `main` from the `part_000` variant:
```
if len(os.Args) == 1 || os.Args[1] == "-h" || os.Args[1] == "--help" {
    fmt.Printf(...); os.Exit(1)
}
domains := os.Args[1:]
```
(`args` is `os.Args[1:]`; this variant reads no domains from stdin). -/
def mainPreP0 (args : List (List Char)) : PreOutcome :=
  match args with
  | [] => .exitCode 1
  | a :: _ =>
    if a = ("-h").data ∨ a = ("--help").data then .exitCode 1
    else .proceed args

/-! ## Derived definitions used by the verification -/

/-- A stdin stream consisting of the given lines, each terminated by a
newline. -/
def joinLines (ls : List (List Char)) : List Char :=
  (ls.map (fun l => l ++ ['\n'])).flatten

/-- All bytes a list of read events delivers. -/
def chunksJoin (evs : List ReadEv) : List Char :=
  (evs.map ReadEv.chunk).flatten

/-- A read event that neither errors nor ends the stream and delivers at
least one byte: the loop appends its bytes and continues. -/
def PlainRead (e : ReadEv) : Prop := e.err = RdErr.ok ∧ e.chunk ≠ []

/-- The results that the not-yet-executed jobs of a pending domain list will
contribute to the results channel. -/
def pendingResults (run : List Char → Option Result) (ds : List (List Char)) :
    Multiset Result :=
  Multiset.ofList (ds.filterMap run)

/-- The RE2 `\b` after a phrase: the text continuing after an occurrence must
start with a non-word character, or end. -/
def HeadNonWord (v : List Char) : Prop :=
  ∀ c, v.head? = some c → isWordCh c = false

/-- The RE2 `\b` before a phrase: the text preceding an occurrence must end
with a non-word character, or be the very start of the subject (in which
case `prevW`, the wordness of the character before the current suffix, must
be false). -/
def LastNonWord (prevW : Bool) (u : List Char) : Prop :=
  (u = [] ∧ prevW = false) ∨ ∃ c, u.getLast? = some c ∧ isWordCh c = false

/-! ## Lemmas about `splitOnPred` -/

theorem splitOnPred_ne_nil (p : Char → Bool) (l : List Char) : splitOnPred p l ≠ [] := by
  cases l with
  | nil => simp [splitOnPred]
  | cons c rest =>
    simp only [splitOnPred]
    by_cases h : p c
    · simp [h]
    · simp only [h]
      cases splitOnPred p rest <;> simp

theorem splitOnPred_nosep (p : Char → Bool) (l : List Char)
    (h : ∀ c ∈ l, p c = false) : splitOnPred p l = [l] := by
  induction l with
  | nil => rfl
  | cons c rest ih =>
    have hc : p c = false := h c (by simp)
    have := ih (fun a ha => h a (by simp [ha]))
    simp [splitOnPred, hc, this]

theorem splitOnPred_append_sep (p : Char → Bool) (x y : List Char) (d : Char)
    (hd : p d = true) : splitOnPred p (x ++ d :: y) = splitOnPred p x ++ splitOnPred p y := by
  induction x with
  | nil => simp [splitOnPred, hd]
  | cons c x' ih =>
    by_cases hc : p c
    · simp [splitOnPred, hc, ih]
    · have hx := splitOnPred_ne_nil p x'
      cases hpx : splitOnPred p x' with
      | nil => exact absurd hpx hx
      | cons piece more => simp [splitOnPred, hc, ih, hpx]

theorem splitOnPred_pieces (p : Char → Bool) (l : List Char) :
    ∀ w ∈ splitOnPred p l, ∀ c ∈ w, p c = false := by
  induction l with
  | nil => intro w hw; simp [splitOnPred] at hw; simp [hw]
  | cons a rest ih =>
    intro w hw
    simp only [splitOnPred] at hw
    by_cases ha : p a
    · simp only [ha, if_true, List.mem_cons] at hw
      rcases hw with h | h
      · simp [h]
      · exact ih w h
    · rw [if_neg ha] at hw
      cases hrest : splitOnPred p rest with
      | nil => exact absurd hrest (splitOnPred_ne_nil p rest)
      | cons piece more =>
        rw [hrest] at hw
        simp only [List.mem_cons] at hw
        rcases hw with h | h
        · subst h
          intro c hc
          rcases List.mem_cons.mp hc with rfl | hc'
          · simpa using ha
          · exact ih piece (by rw [hrest]; exact List.mem_cons_self _ _) c hc'
        · exact ih w (by rw [hrest]; exact List.mem_cons_of_mem _ h)

theorem splitOnPred_congr (p q : Char → Bool) (l : List Char)
    (h : ∀ c ∈ l, p c = q c) : splitOnPred p l = splitOnPred q l := by
  induction l with
  | nil => rfl
  | cons c rest ih =>
    have hc : p c = q c := h c (by simp)
    have := ih (fun a ha => h a (by simp [ha]))
    simp [splitOnPred, hc, this]

/-! ## Lemmas about list indexing from the end -/

theorem getD_reverse_zero {α : Type} (l : List α) (d : α) (h : l ≠ []) :
    l.getD (l.length - 1) d = l.reverse.getD 0 d := by
  have hlen : 0 < l.length := List.length_pos.mpr h
  simp only [List.getD_eq_getElem?_getD]
  rw [List.getElem?_reverse hlen]
  simp

theorem getD_reverse_one {α : Type} (l : List α) (d : α) (h : 2 ≤ l.length) :
    l.getD (l.length - 2) d = l.reverse.getD 1 d := by
  have hlen : 1 < l.length := h
  simp only [List.getD_eq_getElem?_getD]
  rw [List.getElem?_reverse hlen]
  have he : l.length - 1 - 1 = l.length - 2 := by omega
  rw [he]

/-! ## C6 / C10: the WHOIS server resolver -/

theorem joinDots_split (ls : List (List Char)) (hne : ls ≠ [])
    (hdot : ∀ l ∈ ls, ∀ c ∈ l, (c == '.') = false) :
    splitOnChar '.' (joinDots ls) = ls := by
  induction ls with
  | nil => exact absurd rfl hne
  | cons l ls' ih =>
    cases ls' with
    | nil =>
      exact splitOnPred_nosep _ l (hdot l (by simp))
    | cons l2 ls'' =>
      have step : joinDots (l :: l2 :: ls'') = l ++ '.' :: joinDots (l2 :: ls'') := rfl
      rw [step]
      unfold splitOnChar
      rw [splitOnPred_append_sep _ _ _ '.' (by simp)]
      have h1 : splitOnPred (fun c => c == '.') l = [l] :=
        splitOnPred_nosep _ l (hdot l (by simp))
      have h2 : splitOnChar '.' (joinDots (l2 :: ls'')) = l2 :: ls'' :=
        ih (by simp) (fun a ha c hc => hdot a (by simp [ha]) c hc)
      unfold splitOnChar at h2
      rw [h1, h2]
      rfl

/-- C6: for every domain assembled from dot-free labels, `getWhoisServer`
splits it back into those labels, takes the last label as the TLD — or the
last two labels joined by `.` when there are more than two labels — and
returns `{tld}.whois-servers.net:43`; in particular
`resolveServer("google.com") = "com.whois-servers.net:43"` and
`resolveServer("example.co.uk") = "co.uk.whois-servers.net:43"`. -/
theorem c6_resolveServer_spec :
    (∀ ls : List (List Char), ls ≠ [] → (∀ l ∈ ls, ∀ c ∈ l, (c == '.') = false) →
      getWhoisServer (joinDots ls) = effectiveTld ls ++ (".whois-servers.net:43").data) ∧
    getWhoisServer (("google.com").data) = ("com.whois-servers.net:43").data ∧
    getWhoisServer (("example.co.uk").data) = ("co.uk.whois-servers.net:43").data := by
  refine ⟨?_, by decide, by decide⟩
  intro ls hne hdot
  have hsplit := joinDots_split ls hne hdot
  by_cases h2 : 2 < ls.length
  · simp only [getWhoisServer, effectiveTld, hsplit, if_pos h2]
    rw [getD_reverse_zero ls [] hne, getD_reverse_one ls [] (by omega)]
  · simp only [getWhoisServer, effectiveTld, hsplit, if_neg h2]
    rw [getD_reverse_zero ls [] hne]

/-- Witness for C6: the general resolver characterization applied to the
concrete label list `["co", "uk"]`. -/
theorem c6_resolveServer_spec_witness :
    getWhoisServer (joinDots [("co").data, ("uk").data]) =
      effectiveTld [("co").data, ("uk").data] ++ (".whois-servers.net:43").data :=
  c6_resolveServer_spec.1 [("co").data, ("uk").data] (by decide) (by decide)

/-- C10: `getWhoisServer` is total over all strings: the split never yields
an empty segment list (so the Go indexing `segments[len(segments)-1]` is in
bounds), the result always ends in `".whois-servers.net:43"`, and a dot-free
input `d` (including the empty string) maps to
`d + ".whois-servers.net:43"`. -/
theorem c10_getWhoisServer_total :
    ∀ s : List Char,
      splitOnChar '.' s ≠ [] ∧
      (∃ t, getWhoisServer s = t ++ (".whois-servers.net:43").data) ∧
      ((∀ c ∈ s, (c == '.') = false) → getWhoisServer s = s ++ (".whois-servers.net:43").data) := by
  intro s
  refine ⟨splitOnPred_ne_nil _ s, ⟨_, rfl⟩, ?_⟩
  intro hnd
  have hsplit : splitOnChar '.' s = [s] := splitOnPred_nosep _ s hnd
  simp [getWhoisServer, hsplit]

/-- Witness for C10 at the dot-free input `"abc"` (and hence, by the same
theorem, the in-bounds indexing fact at that input). -/
theorem c10_getWhoisServer_total_witness :
    getWhoisServer (("abc").data) = ("abc").data ++ (".whois-servers.net:43").data :=
  (c10_getWhoisServer_total (("abc").data)).2.2 (by decide)

/-! ## C9: `readLines` drops an unterminated final line -/


theorem readLinesAux_no_newline (tail : List Char) (acc : List Char)
    (h : ∀ c ∈ tail, c ≠ '\n') : readLinesAux acc tail = [] := by
  induction tail generalizing acc with
  | nil => rfl
  | cons c rest ih =>
    have hc : c ≠ '\n' := h c (by simp)
    simp only [readLinesAux, if_neg hc]
    exact ih _ (fun a ha => h a (by simp [ha]))

theorem readLinesAux_line (x y : List Char) (acc : List Char)
    (hx : ∀ c ∈ x, c ≠ '\n') :
    readLinesAux acc (x ++ '\n' :: y) = (acc.reverse ++ x) :: readLinesAux [] y := by
  induction x generalizing acc with
  | nil => simp [readLinesAux]
  | cons c x' ih =>
    have hc : c ≠ '\n' := hx c (by simp)
    simp only [List.cons_append, readLinesAux, if_neg hc, List.append_eq]
    rw [ih _ (fun a ha => hx a (by simp [ha]))]
    simp

/-- C9: `readLines` returns only the newline-terminated lines of its input
(with the newline stripped), silently dropping a final line not terminated by
a newline; in particular stdin consisting solely of `"a.com"` with no
trailing newline yields the empty domain list. -/
theorem c9_readLines_drops_unterminated :
    (∀ (ls : List (List Char)) (tail : List Char),
      (∀ l ∈ ls, ∀ c ∈ l, c ≠ '\n') → (∀ c ∈ tail, c ≠ '\n') →
      readLines (joinLines ls ++ tail) = ls) ∧
    readLines (("a.com").data) = [] := by
  refine ⟨?_, by decide⟩
  intro ls tail hls htail
  induction ls with
  | nil =>
    simpa [readLines, joinLines] using readLinesAux_no_newline tail [] htail
  | cons l ls' ih =>
    have step : joinLines (l :: ls') ++ tail = l ++ '\n' :: (joinLines ls' ++ tail) := by
      simp [joinLines]
    rw [readLines, step, readLinesAux_line l _ [] (hls l (by simp))]
    have := ih (fun a ha c hc => hls a (by simp [ha]) c hc)
    rw [readLines] at this
    simp [this]

/-- Witness for C9: two newline-terminated lines followed by an unterminated
fragment yield exactly the two lines. -/
theorem c9_readLines_drops_unterminated_witness :
    readLines (joinLines [("a.com").data, ("b.com").data] ++ ("frag").data) =
      [("a.com").data, ("b.com").data] :=
  c9_readLines_drops_unterminated.1 [("a.com").data, ("b.com").data] (("frag").data)
    (by decide) (by decide)

/-! ## C4: `readWords` produces the whitespace/newline-delimited tokens -/

theorem dropWhile_all_false {α : Type} (p : α → Bool) (l : List α)
    (h : ∀ a ∈ l, p a = false) : l.dropWhile p = l := by
  cases l with
  | nil => rfl
  | cons a rest => simp [List.dropWhile_cons, h a (by simp)]

theorem trimRightChar_noop (cut : Char) (l : List Char)
    (h : ∀ c ∈ l, (c == cut) = false) : trimRightChar cut l = l := by
  unfold trimRightChar
  rw [dropWhile_all_false _ _ (fun a ha => h a (by simpa using ha))]
  simp

theorem trimChar_noop (cut : Char) (l : List Char)
    (h : ∀ c ∈ l, (c == cut) = false) : trimChar cut l = l := by
  unfold trimChar
  rw [dropWhile_all_false _ _ h]
  rw [dropWhile_all_false _ _ (fun a ha => h a (by simpa using ha))]
  simp

theorem trimRightChar_newline (x : List Char)
    (h : ∀ c ∈ x, (c == '\n') = false) : trimRightChar '\n' (x ++ ['\n']) = x := by
  unfold trimRightChar
  have : (x ++ ['\n']).reverse = '\n' :: x.reverse := by simp
  rw [this, List.dropWhile_cons, if_pos (by decide)]
  rw [dropWhile_all_false _ _ (fun a ha => h a (by simpa using ha))]
  simp

theorem lineWords_eq_wsTokens (x : List Char)
    (h : ∀ c ∈ x, (c == '\n') = false) : lineWords x = wsTokens x := by
  unfold lineWords wsTokens
  rw [trimRightChar_noop '\n' x h]
  rw [splitOnPred_congr (fun c => c == ' ' || c == '\n') (fun c => c == ' ') x
    (fun c hc => by simp [h c hc])]
  congr 1
  have htrim : ∀ w ∈ splitOnPred (fun c => c == ' ') x, trimChar ' ' w = w := fun w hw =>
    trimChar_noop ' ' w (splitOnPred_pieces _ x w hw)
  unfold splitOnChar
  rw [List.map_congr_left htrim]
  simp

theorem lineWords_newline (x : List Char)
    (h : ∀ c ∈ x, (c == '\n') = false) : lineWords (x ++ ['\n']) = lineWords x := by
  unfold lineWords
  rw [trimRightChar_newline x h, trimRightChar_noop '\n' x h]

theorem wsTokens_append_newline (x y : List Char) :
    wsTokens (x ++ '\n' :: y) = wsTokens x ++ wsTokens y := by
  unfold wsTokens
  rw [splitOnPred_append_sep _ x y '\n' (by simp)]
  simp

theorem readWordsAux_eq (input : List Char) : ∀ acc : List Char,
    (∀ c ∈ acc, (c == '\n') = false) →
    readWordsAux acc input = wsTokens (acc ++ input) := by
  induction input with
  | nil => intro acc hacc; simpa [readWordsAux] using lineWords_eq_wsTokens acc hacc
  | cons c rest ih =>
    intro acc hacc
    by_cases hc : c = '\n'
    · subst hc
      have step : readWordsAux acc ('\n' :: rest) =
          lineWords (acc ++ ['\n']) ++ readWordsAux [] rest := by
        simp [readWordsAux]
      rw [step, lineWords_newline acc hacc, ih [] (by simp),
        lineWords_eq_wsTokens acc hacc, wsTokens_append_newline]
      simp
    · simp only [readWordsAux, if_neg hc]
      rw [ih (acc ++ [c]) ?side]
      · simp
      case side =>
        intro a ha
        rcases List.mem_append.mp ha with h1 | h1
        · exact hacc a h1
        · simp only [List.mem_singleton] at h1
          subst h1
          simpa using hc

/-- C4: `readWords` reads standard input as whitespace/newline-delimited
tokens until end-of-stream (the maximal non-empty runs of characters that
are neither a space nor a newline); for the input `"a.com\nb.com  c.com\n"`
the resulting domain list is exactly `["a.com", "b.com", "c.com"]`. -/
theorem c4_readWords_tokens :
    (∀ input : List Char, readWords input = wsTokens input) ∧
    readWords (("a.com\nb.com  c.com\n").data) =
      [("a.com").data, ("b.com").data, ("c.com").data] := by
  refine ⟨?_, by decide⟩
  intro input
  simpa using readWordsAux_eq input [] (by simp)

/-! ## C2: the WHOIS client's read loop -/



theorem connReadLoop_plain (pre : List ReadEv) : ∀ (acc : List Char) (l : List ReadEv),
    (∀ e ∈ pre, PlainRead e) →
    connReadLoop acc (pre ++ l) = connReadLoop (acc ++ chunksJoin pre) l := by
  induction pre with
  | nil => intro acc l _; simp [chunksJoin]
  | cons e pre' ih =>
    intro acc l hpre
    have he : PlainRead e := hpre e (by simp)
    have hne : e.chunk.isEmpty = false := by
      cases hch : e.chunk with
      | nil => exact absurd hch he.2
      | cons a t => simp
    have herr : e.err.isEOF = false := by rw [he.1]; rfl
    have hstep : connReadLoop acc ((e :: pre') ++ l) = connReadLoop (acc ++ e.chunk) (pre' ++ l) := by
      simp [connReadLoop, hne, herr]
    rw [hstep, ih (acc ++ e.chunk) l (fun a ha => hpre a (by simp [ha]))]
    simp [chunksJoin]

/-- C2 (amended): in the read loop of `whois`, after any number of plain
reads, a zero-byte read carrying a non-`io.EOF`, non-nil error makes the
query fail with that error; a read carrying `io.EOF` ends the loop and the
query returns all accumulated bytes with a nil error; and a zero-byte read
with a *nil* error (no end-of-stream) makes the query return immediately
with a nil error and empty text — success, not an `IOError`. -/
theorem c2_read_loop_amended :
    ∀ (pre : List ReadEv) (ev : ReadEv) (rest : List ReadEv),
      (∀ e ∈ pre, PlainRead e) →
      ((∀ m, ev.chunk = [] → ev.err = RdErr.fail m →
        connReadLoop [] (pre ++ ev :: rest) = some ([], some m)) ∧
      (ev.err = RdErr.eof →
        connReadLoop [] (pre ++ ev :: rest) = some (chunksJoin pre ++ ev.chunk, none)) ∧
      (ev.chunk = [] → ev.err = RdErr.ok →
        connReadLoop [] (pre ++ ev :: rest) = some ([], none))) := by
  intro pre ev rest hpre
  rw [connReadLoop_plain pre [] (ev :: rest) hpre]
  refine ⟨?_, ?_, ?_⟩
  · intro m hch herr
    simp [connReadLoop, hch, herr, RdErr.isEOF, RdErr.toMsg]
  · intro herr
    have hcond : (ev.chunk.isEmpty && !ev.err.isEOF) = false := by
      rw [herr]; simp [RdErr.isEOF]
    simp only [connReadLoop]
    rw [if_neg (by simp [hcond]), if_pos (by rw [herr]; rfl)]
    simp
  · intro hch herr
    simp [connReadLoop, hch, herr, RdErr.isEOF, RdErr.toMsg]

/-- Witness for C2 (amended): one plain read of `"ab"` followed by an EOF
read of `"cd"` returns `"abcd"` with a nil error. -/
theorem c2_read_loop_amended_witness :
    connReadLoop [] ([⟨("ab").data, RdErr.ok⟩] ++ ⟨("cd").data, RdErr.eof⟩ :: []) =
      some (chunksJoin [⟨("ab").data, RdErr.ok⟩] ++ ("cd").data, none) :=
  (c2_read_loop_amended [⟨("ab").data, RdErr.ok⟩] ⟨("cd").data, RdErr.eof⟩ []
    (by intro e he; simp at he; subst he; exact ⟨rfl, by decide⟩)).2.1 rfl

/-- Counterexample for C2 as stated: on a connection whose first read yields
zero bytes with a nil error (no end-of-stream signalled), `whois` for the
valid domain `"a.com"` returns `("", nil)` — a *successful* query with empty
text — rather than failing with an `IOError`. -/
theorem c2_read_loop_counterexample :
    whois (fun _ _ => NetOutcome.conn [⟨[], RdErr.ok⟩]) (("a.com").data) =
      some ([], none) := by decide

/-! ## C5: the non-debug result reporter -/

theorem mem_resultLines (r : Result) (line : List Char) :
    line ∈ resultLines r ↔
      ((r.err = none ∧ r.available = true ∧ line = r.domain) ∨
       (∃ m, r.err = some m ∧ line = r.domain ++ (": ").data ++ m)) := by
  cases herr : r.err with
  | some m => simp [resultLines, herr]
  | none =>
    cases hav : r.available with
    | true => simp [resultLines, herr, hav]
    | false => simp [resultLines, herr, hav]

/-- C5: in non-debug mode a line appears on stdout iff it is the bare domain
of a success classified available, or the `"domain: error"` line of a
failure — so stdout contains exactly the available domains plus the
per-domain failure lines, and no others; and the spec's end-to-end scenario
(stub server answering "no match for" only for `uqbar.io` and `kjczr.com`)
prints exactly those two domains. -/
theorem c5_processResults_spec :
    (∀ (rs : List Result) (line : List Char),
      line ∈ processResults rs ↔
        ((∃ r ∈ rs, r.err = none ∧ r.available = true ∧ line = r.domain) ∨
         (∃ r ∈ rs, ∃ m, r.err = some m ∧ line = r.domain ++ (": ").data ++ m))) ∧
    processResults (scenarioDomains.filterMap (jobRunWhois stubNet)) =
      [("uqbar.io").data, ("kjczr.com").data] := by
  refine ⟨?_, by decide⟩
  intro rs line
  rw [processResults, List.mem_flatMap]
  constructor
  · rintro ⟨r, hr, hline⟩
    rcases (mem_resultLines r line).mp hline with ⟨h1, h2, h3⟩ | ⟨m, h1, h2⟩
    · exact Or.inl ⟨r, hr, h1, h2, h3⟩
    · exact Or.inr ⟨r, hr, m, h1, h2⟩
  · rintro (⟨r, hr, h1, h2, h3⟩ | ⟨r, hr, m, h1, h2⟩)
    · exact ⟨r, hr, (mem_resultLines r line).mpr (Or.inl ⟨h1, h2, h3⟩)⟩
    · exact ⟨r, hr, (mem_resultLines r line).mpr (Or.inr ⟨m, h1, h2⟩)⟩

/-- Witness for C5: the membership characterization instantiated on a
singleton result list. -/
theorem c5_processResults_spec_witness :
    ("x.com").data ∈ processResults [⟨("x.com").data, [], true, none⟩] :=
  (c5_processResults_spec.1 [⟨("x.com").data, [], true, none⟩] (("x.com").data)).mpr
    (Or.inl ⟨⟨("x.com").data, [], true, none⟩, by simp, rfl, rfl, rfl⟩)

/-! ## C8: process exit codes -/

/-- C8: whenever the pre-network phase proceeds, the process exits 0 —
whatever the lookup oracle returns for any domain, i.e. regardless of
per-domain failures; with no command-line arguments both variants exit 1;
the `part_000` variant exits 1 for an explicit `-h`/`--help` (its help is an
error path), while the flagship variant's unknown-flag path for `-h` exits 2;
and a failure reading domains from stdin when the sole argument is `-` exits
1.  The pre-network phase is a function of the arguments and stdin alone, so
both process-fatal input errors are decided before any network activity. -/
theorem c8_exit_codes :
    (∀ (g : List Char → List Char × Option (List Char)) (args : List (List Char))
        (stdin : Except (List Char) (List (List Char))) (ds : List (List Char)),
      mainPreChk args stdin = PreOutcome.proceed ds → (mainRunChk g args stdin).1 = 0) ∧
    (∀ stdin, mainPreChk [] stdin = PreOutcome.exitCode 1) ∧
    (mainPreP0 [] = PreOutcome.exitCode 1 ∧
      mainPreP0 [("-h").data] = PreOutcome.exitCode 1 ∧
      mainPreP0 [("--help").data] = PreOutcome.exitCode 1) ∧
    (∀ stdin, mainPreChk [("-h").data] stdin = PreOutcome.exitCode 2) ∧
    (∀ e, mainPreChk [("-").data] (Except.error e) = PreOutcome.exitCode 1) := by
  refine ⟨?_, ?_, ⟨by decide, by decide, by decide⟩, ?_, ?_⟩
  · intro g args stdin ds h
    simp [mainRunChk, h]
  · intro stdin; rfl
  · intro stdin
    have hpf : parseFlags [("-h").data] false false = none := by decide
    simp [mainPreChk, hpf]
  · intro e
    have hpf : parseFlags [("-").data] false false =
        some (false, false, [("-").data]) := by decide
    simp [mainPreChk, hpf]

/-- Witness for C8: normal completion on one domain exits 0. -/
theorem c8_exit_codes_witness :
    (mainRunChk (fun _ => ([], none)) [("x.com").data] (Except.ok [])).1 = 0 :=
  c8_exit_codes.1 (fun _ => ([], none)) [("x.com").data] (Except.ok [])
    [("x.com").data] (by decide)

/-! ## C1: one result per input domain -/


theorem pendingResults_append (run : List Char → Option Result) (x y : List (List Char)) :
    pendingResults run (x ++ y) = pendingResults run x + pendingResults run y := by
  unfold pendingResults
  rw [List.filterMap_append]
  exact (Multiset.coe_add _ _).symm

theorem pendingResults_cons (run : List Char → Option Result) (d : List Char)
    (ds : List (List Char)) :
    pendingResults run (d :: ds) = optResult (run d) + pendingResults run ds := by
  unfold pendingResults optResult
  rw [List.filterMap_cons]
  cases run d with
  | none => simp
  | some r => simp [Multiset.singleton_add, Multiset.cons_coe]

theorem schedStep_invariant (run : List Char → Option Result) (s t : SchedState)
    (h : SchedStep run s t) :
    t.delivered + pendingResults run t.pending =
      s.delivered + pendingResults run s.pending := by
  cases h with
  | take l1 d l2 rs =>
    simp only [pendingResults_append, pendingResults_cons]
    simp [add_comm, add_left_comm, add_assoc]

theorem sched_run_terminal (run : List Char → Option Result) (ds : List (List Char))
    (rs : Multiset Result)
    (h : Relation.ReflTransGen (SchedStep run) ⟨ds, 0⟩ ⟨[], rs⟩) :
    rs = pendingResults run ds := by
  have key : ∀ s t : SchedState, Relation.ReflTransGen (SchedStep run) s t →
      t.delivered + pendingResults run t.pending =
        s.delivered + pendingResults run s.pending := by
    intro s t hst
    induction hst with
    | refl => rfl
    | tail _ step ih => rw [schedStep_invariant run _ _ step, ih]
  have hends := key _ _ h
  simpa [pendingResults] using hends

theorem jobRun_domain (g : List Char → List Char × Option (List Char)) (d : List Char) :
    (jobRun g d).domain = d := by
  unfold jobRun
  cases (g d).2 <;> rfl

/-- C1: under the `part_000` variant's `Job.Run`, a dial failure for the
single valid domain `"a.com"` makes every complete scheduler run deliver
*zero* results — the domain is dropped, contradicting the one-result-per-
domain invariant; under the flagship `Job.Run` (which always sends), every
complete run delivers exactly the multiset of per-domain results, whose
domains are exactly the input domains (no duplicates, no drops), and the
result of each domain depends only on the lookup oracle's answer for that
domain (failure isolation). -/
theorem c1_one_result_per_domain :
    (∀ rs : Multiset Result,
      Relation.ReflTransGen (SchedStep (jobRunP0 (fun _ => P0Net.dialFail)))
        ⟨[("a.com").data], 0⟩ ⟨[], rs⟩ → rs = 0) ∧
    (∀ (g : List Char → List Char × Option (List Char)) (ds : List (List Char))
        (rs : Multiset Result),
      Relation.ReflTransGen (SchedStep (fun d => some (jobRun g d))) ⟨ds, 0⟩ ⟨[], rs⟩ →
        rs = Multiset.ofList (ds.map (jobRun g)) ∧
          rs.map Result.domain = Multiset.ofList ds) ∧
    (∀ (g1 g2 : List Char → List Char × Option (List Char)) (d : List Char),
      g1 d = g2 d → jobRun g1 d = jobRun g2 d) := by
  refine ⟨?_, ?_, ?_⟩
  · intro rs h
    have hnone : jobRunP0 (fun _ => P0Net.dialFail) (("a.com").data) = none := by decide
    have := sched_run_terminal _ _ _ h
    rw [this]
    simp [pendingResults, hnone]
  · intro g ds rs h
    have hterm := sched_run_terminal _ _ _ h
    have hmap : pendingResults (fun d => some (jobRun g d)) ds =
        Multiset.ofList (ds.map (jobRun g)) := by
      show Multiset.ofList (ds.filterMap (some ∘ jobRun g)) = _
      rw [List.filterMap_eq_map]
    rw [hterm, hmap]
    refine ⟨rfl, ?_⟩
    show Multiset.map Result.domain (Multiset.ofList (ds.map (jobRun g))) = _
    have : Multiset.map Result.domain (Multiset.ofList (ds.map (jobRun g))) =
        Multiset.ofList ((ds.map (jobRun g)).map Result.domain) := rfl
    rw [this, List.map_map]
    have hid : ds.map (Result.domain ∘ jobRun g) = ds.map id :=
      List.map_congr_left (fun d _ => jobRun_domain g d)
    rw [hid, List.map_id]
  · intro g1 g2 d h
    unfold jobRun
    rw [h]

/-- Witness for C1: the one-step run of the `part_000` scheduler on the
single domain `"a.com"` with a failing dial terminates having delivered the
empty multiset of results. -/
theorem c1_one_result_per_domain_witness : ∃ rs : Multiset Result,
    Relation.ReflTransGen (SchedStep (jobRunP0 (fun _ => P0Net.dialFail)))
      ⟨[("a.com").data], 0⟩ ⟨[], rs⟩ ∧ rs = 0 := by
  have hnone : jobRunP0 (fun _ => P0Net.dialFail) (("a.com").data) = none := by decide
  have hstep : SchedStep (jobRunP0 (fun _ => P0Net.dialFail))
      ⟨[] ++ ("a.com").data :: [], 0⟩
      ⟨[] ++ [], 0 + optResult (jobRunP0 (fun _ => P0Net.dialFail) (("a.com").data))⟩ :=
    SchedStep.take [] (("a.com").data) [] 0
  have hrun : Relation.ReflTransGen (SchedStep (jobRunP0 (fun _ => P0Net.dialFail)))
      ⟨[("a.com").data], 0⟩ ⟨[], 0⟩ :=
    Relation.ReflTransGen.single (by simpa [hnone, optResult] using hstep)
  exact ⟨0, hrun, c1_one_result_per_domain.1 0 hrun⟩

/-! ## C3: the domain-validation regex -/

theorem mem_takeWhile_true {p : Char → Bool} :
    ∀ (l : List Char) (a : Char), a ∈ l.takeWhile p → p a = true := by
  intro l
  induction l with
  | nil => intro a ha; simp [List.takeWhile] at ha
  | cons c rest ih =>
    intro a ha
    rw [List.takeWhile_cons] at ha
    by_cases hc : p c
    · rw [if_pos hc] at ha
      rcases List.mem_cons.mp ha with rfl | ha'
      · exact hc
      · exact ih a ha'
    · rw [if_neg hc] at ha
      simp at ha

theorem dropWhile_head_false {p : Char → Bool} :
    ∀ (l : List Char) (x : Char) (xs : List Char), l.dropWhile p = x :: xs → p x = false := by
  intro l
  induction l with
  | nil => intro x xs h; simp [List.dropWhile] at h
  | cons c rest ih =>
    intro x xs h
    rw [List.dropWhile_cons] at h
    by_cases hc : p c
    · rw [if_pos hc] at h
      exact ih x xs h
    · rw [if_neg hc] at h
      cases h
      simpa using hc

theorem takeWhile_middle (p : Char → Bool) (l1 : List Char) (x : Char) (l2 : List Char)
    (h1 : ∀ a ∈ l1, p a = true) (hx : p x = false) :
    (l1 ++ x :: l2).takeWhile p = l1 := by
  induction l1 with
  | nil => simp [List.takeWhile_cons, hx]
  | cons c l1' ih =>
    have hc : p c = true := h1 c (by simp)
    simp only [List.cons_append, List.takeWhile_cons, hc, if_true]
    rw [ih (fun a ha => h1 a (by simp [ha]))]

theorem dropWhile_middle (p : Char → Bool) (l1 : List Char) (x : Char) (l2 : List Char)
    (h1 : ∀ a ∈ l1, p a = true) (hx : p x = false) :
    (l1 ++ x :: l2).dropWhile p = x :: l2 := by
  induction l1 with
  | nil => simp [List.dropWhile_cons, hx]
  | cons c l1' ih =>
    have hc : p c = true := h1 c (by simp)
    simp only [List.cons_append, List.dropWhile_cons, hc, if_true]
    exact ih (fun a ha => h1 a (by simp [ha]))

theorem tldOK_chars (t : List Char) (h : tldOK t = true) :
    2 ≤ t.length ∧ ∀ c ∈ t, isAlphaCh c = true := by
  unfold tldOK at h
  simpa [List.all_eq_true] using h

theorem prefixOK_chars (p : List Char) (h : prefixOK p = true) :
    ∃ a p', p = a :: p' ∧ isAlnumCh a = true ∧ ∀ c ∈ p, isMidCh c = true := by
  cases p with
  | nil => simp [prefixOK] at h
  | cons a rest =>
    simp only [prefixOK, Bool.and_eq_true, Bool.or_eq_true, List.isEmpty_iff,
      List.all_eq_true, decide_eq_true_eq] at h
    obtain ⟨ha, hrest⟩ := h
    refine ⟨a, rest, rfl, ha, ?_⟩
    intro c hc
    have alnum_mid : ∀ x : Char, isAlnumCh x = true → isMidCh x = true := by
      intro x hx
      unfold isAlnumCh at hx
      simp [isMidCh, hx]
    rcases List.mem_cons.mp hc with rfl | hc'
    · exact alnum_mid c ha
    rcases hrest with hnil | ⟨⟨_, hmid⟩, hlast⟩
    · rw [hnil] at hc'; simp at hc'
    have hne : rest ≠ [] := by
      intro hcon; rw [hcon] at hc'; simp at hc'
    have hdecomp : rest.dropLast ++ [rest.getLast hne] = rest :=
      List.dropLast_append_getLast hne
    rw [← hdecomp] at hc'
    rcases List.mem_append.mp hc' with hmem | hmem
    · exact hmid c hmem
    · simp only [List.mem_singleton] at hmem
      subst hmem
      have : rest.getLastD ' ' = rest.getLast hne := by
        rw [List.getLastD_eq_getLast?, List.getLast?_eq_getLast rest hne]
        rfl
      rw [this] at hlast
      exact alnum_mid _ hlast

theorem mid_not_whitespace (c : Char) (h : isMidCh c = true) : c.isWhitespace = false := by
  cases hws : c.isWhitespace with
  | false => rfl
  | true =>
    simp only [Char.isWhitespace, Bool.or_eq_true, decide_eq_true_eq] at hws
    rcases hws with ((rfl | rfl) | rfl) | rfl <;> simp [isMidCh] at h

theorem alpha_not_dot (c : Char) (h : isAlphaCh c = true) : (c == '.') = false := by
  cases hd : c == '.' with
  | false => rfl
  | true =>
    have : c = '.' := by simpa using hd
    subst this
    simp [isAlphaCh] at h

/-- The `domainRE` matcher characterized declaratively: a string matches iff
it splits at a dot into a prefix matching
`[a-zA-Z0-9](?:[a-zA-Z0-9-\.]{0,61}[a-zA-Z0-9])?` and an all-alphabetic tail
of length at least 2. -/
theorem isDomainValid_iff (s : List Char) :
    isDomainValid s = true ↔
      ∃ p t, s = p ++ '.' :: t ∧ prefixOK p = true ∧ tldOK t = true := by
  constructor
  · intro h
    simp only [isDomainValid] at h
    cases hdrop : s.reverse.dropWhile (fun c => !(c == '.')) with
    | nil => rw [hdrop] at h; exact absurd h (by simp)
    | cons d preRev =>
      rw [hdrop] at h
      obtain ⟨tw, htw⟩ : ∃ tw, s.reverse.takeWhile (fun c => !(c == '.')) = tw := ⟨_, rfl⟩
      rw [htw] at h
      have hBool : prefixOK preRev.reverse = true ∧ tldOK tw.reverse = true := by
        simpa using h
      have hd : (!(d == '.')) = false := dropWhile_head_false _ _ _ hdrop
      have hd' : d = '.' := by simpa using hd
      have hsplit : s.reverse.takeWhile (fun c => !(c == '.')) ++
          s.reverse.dropWhile (fun c => !(c == '.')) = s.reverse := by simp
      rw [hdrop, htw] at hsplit
      subst hd'
      refine ⟨preRev.reverse, tw.reverse, ?_, hBool.1, hBool.2⟩
      have hs : s = (tw ++ '.' :: preRev).reverse := by
        rw [hsplit, List.reverse_reverse]
      rw [hs]
      simp
  · rintro ⟨p, t, rfl, hp, ht⟩
    have htAll : ∀ c ∈ t, isAlphaCh c = true := (tldOK_chars t ht).2
    have htNe : ∀ a ∈ t.reverse, (!(a == '.')) = true := by
      intro a ha
      have := alpha_not_dot a (htAll a (by simpa using ha))
      simp [this]
    have hrev : (p ++ '.' :: t).reverse = t.reverse ++ '.' :: p.reverse := by simp
    have hTW : ((p ++ '.' :: t).reverse).takeWhile (fun c => !(c == '.')) = t.reverse := by
      rw [hrev]
      exact takeWhile_middle _ _ _ _ htNe (by simp)
    have hDW : ((p ++ '.' :: t).reverse).dropWhile (fun c => !(c == '.')) = '.' :: p.reverse := by
      rw [hrev]
      exact dropWhile_middle _ _ _ _ htNe (by simp)
    simp only [isDomainValid]
    rw [hTW, hDW]
    simp [hp, ht]

/-- C3 counterexample: `"a..b.com"` — a string with consecutive dots —
matches `domainRE` (its middle character class `[a-zA-Z0-9-\.]` admits
dots), yet the spec's label-based validity predicate rejects it. -/
theorem c3_isDomainValid_counterexample :
    isDomainValid (("a..b.com").data) = true ∧
      domainSpecValid (("a..b.com").data) = false := by decide

/-- C3 (amended): `isDomainValid(d)` is true iff `d` splits as
`prefix ++ "." ++ tld` with `tld` at least 2 alphabetic characters and
`prefix` an alphanumeric optionally followed by at most 61 characters drawn
from alphanumerics, hyphens *and dots* ending in an alphanumeric; hence
strings containing whitespace, strings with a leading hyphen, and strings
with no dot are rejected, and `"google.com"` is accepted — but strings with
consecutive interior dots, such as `"a..b.com"`, are accepted too. -/
theorem c3_isDomainValid_amended :
    (∀ s : List Char, isDomainValid s = true ↔
      ∃ p t, s = p ++ '.' :: t ∧ prefixOK p = true ∧ tldOK t = true) ∧
    (∀ s : List Char, (∃ c ∈ s, c.isWhitespace = true) → isDomainValid s = false) ∧
    (∀ rest : List Char, isDomainValid ('-' :: rest) = false) ∧
    (∀ s : List Char, '.' ∉ s → isDomainValid s = false) ∧
    isDomainValid (("google.com").data) = true ∧
    isDomainValid (("-foo.com").data) = false ∧
    isDomainValid (("no-tld").data) = false ∧
    isDomainValid (("a..b.com").data) = true := by
  refine ⟨isDomainValid_iff, ?_, ?_, ?_, by decide, by decide, by decide, by decide⟩
  · rintro s ⟨c, hc, hws⟩
    cases hval : isDomainValid s with
    | false => rfl
    | true =>
      obtain ⟨p, t, rfl, hp, ht⟩ := (isDomainValid_iff s).mp hval
      have hmid : isMidCh c = true := by
        rcases List.mem_append.mp hc with hcp | hct
        · obtain ⟨a, p', hpe, ha2, hall⟩ := prefixOK_chars p hp
          exact hall c hcp
        · rcases List.mem_cons.mp hct with rfl | hct'
          · decide
          · have := (tldOK_chars t ht).2 c hct'
            unfold isAlphaCh at this
            simp [isMidCh, Char.isAlphanum, this]
      simp [mid_not_whitespace c hmid] at hws
  · intro rest
    cases hval : isDomainValid ('-' :: rest) with
    | false => rfl
    | true =>
      obtain ⟨p, t, heq, hp, ht⟩ := (isDomainValid_iff _).mp hval
      obtain ⟨a, p', rfl, ha, _⟩ := prefixOK_chars p hp
      have : '-' = a := by
        have := congrArg List.head? heq
        simpa using this
      subst this
      exact absurd ha (by decide)
  · intro s hnd
    cases hval : isDomainValid s with
    | false => rfl
    | true =>
      obtain ⟨p, t, rfl, _, _⟩ := (isDomainValid_iff _).mp hval
      exact absurd (by simp : '.' ∈ p ++ '.' :: t) hnd

/-- Witness for C3 (amended): the characterization instantiated at
`"x.co"`, producing its prefix/TLD decomposition. -/
theorem c3_isDomainValid_amended_witness :
    ∃ p t, ("x.co").data = p ++ '.' :: t ∧ prefixOK p = true ∧ tldOK t = true :=
  (c3_isDomainValid_amended.1 (("x.co").data)).mp (by decide)

/-! ## C7: the availability classifier -/



theorem matchHere_iff (p : List Char) : ∀ s : List Char,
    matchHere s p = true ↔ ∃ v, s = p ++ v ∧ HeadNonWord v := by
  induction p with
  | nil =>
    intro s
    cases s with
    | nil =>
      constructor
      · intro _
        exact ⟨[], rfl, fun c hc => by simp at hc⟩
      · intro _
        rfl
    | cons c cs =>
      constructor
      · intro h
        refine ⟨c :: cs, rfl, ?_⟩
        intro a ha
        simp only [List.head?_cons, Option.some.injEq] at ha
        subst ha
        simpa [matchHere] using h
      · rintro ⟨v, hv, hnw⟩
        have := hnw c (by rw [List.nil_append] at hv; rw [← hv]; rfl)
        simpa [matchHere] using this
  | cons q qs ih =>
    intro s
    cases s with
    | nil =>
      simp only [matchHere]
      constructor
      · intro h
        simp at h
      · rintro ⟨v, hv, _⟩
        simp at hv
    | cons c cs =>
      constructor
      · intro h
        simp only [matchHere, Bool.and_eq_true, beq_iff_eq] at h
        obtain ⟨rfl, hm⟩ := h
        obtain ⟨v, hv, hnw⟩ := (ih cs).mp hm
        exact ⟨v, by rw [hv]; rfl, hnw⟩
      · rintro ⟨v, hv, hnw⟩
        rw [List.cons_append] at hv
        injection hv with h1 h2
        simp only [matchHere, Bool.and_eq_true, beq_iff_eq]
        exact ⟨h1, (ih cs).mpr ⟨v, h2, hnw⟩⟩

theorem wordSearch_iff (p : List Char) : ∀ (s : List Char) (prevW : Bool),
    wordSearch p prevW s = true ↔
      ∃ u v, s = u ++ p ++ v ∧ LastNonWord prevW u ∧ HeadNonWord v := by
  intro s
  induction s with
  | nil =>
    intro prevW
    constructor
    · intro h
      simp only [wordSearch, Bool.and_eq_true, Bool.not_eq_true'] at h
      obtain ⟨hw, hm⟩ := h
      obtain ⟨v, hv, hnw⟩ := (matchHere_iff p []).mp hm
      obtain ⟨hp, hv'⟩ := List.append_eq_nil.mp hv.symm
      subst hp
      subst hv'
      exact ⟨[], [], rfl, Or.inl ⟨rfl, hw⟩, hnw⟩
    · rintro ⟨u, v, huv, hlast, hnw⟩
      obtain ⟨hup, hv⟩ := List.append_eq_nil.mp huv.symm
      obtain ⟨hu, hp⟩ := List.append_eq_nil.mp hup
      subst hu
      subst hp
      subst hv
      rcases hlast with ⟨_, hw⟩ | ⟨a, hga, _⟩
      · simp [wordSearch, hw, matchHere]
      · simp at hga
  | cons c cs ih =>
    intro prevW
    constructor
    · intro h
      have hsplit : (prevW = false ∧ matchHere (c :: cs) p = true) ∨
          wordSearch p (isWordCh c) cs = true := by
        have h0 : ((!prevW && matchHere (c :: cs) p) ||
            wordSearch p (isWordCh c) cs) = true := h
        simpa using h0
      rcases hsplit with ⟨hpw, hm⟩ | h2
      · obtain ⟨v, hv, hnw⟩ := (matchHere_iff p _).mp hm
        exact ⟨[], v, by simpa using hv, Or.inl ⟨rfl, hpw⟩, hnw⟩
      · obtain ⟨u, v, huv, hlast, hnw⟩ := (ih (isWordCh c)).mp h2
        refine ⟨c :: u, v, by simp [huv], ?_, hnw⟩
        rcases hlast with ⟨rfl, hw⟩ | ⟨a, hga, hwa⟩
        · exact Or.inr ⟨c, by simp, hw⟩
        · have hune : u ≠ [] := by
            intro hcon; rw [hcon] at hga; simp at hga
          cases u with
          | nil => exact absurd rfl hune
          | cons b t =>
            exact Or.inr ⟨a, by rw [List.getLast?_cons_cons]; exact hga, hwa⟩
    · rintro ⟨u, v, huv, hlast, hnw⟩
      cases u with
      | nil =>
        rcases hlast with ⟨_, hw⟩ | ⟨a, hga, _⟩
        · have hm : matchHere (c :: cs) p = true :=
            (matchHere_iff p _).mpr ⟨v, by simpa using huv, hnw⟩
          simp [wordSearch, hm, hw]
        · simp at hga
      | cons b u' =>
        rw [List.cons_append, List.cons_append] at huv
        injection huv with h1 h2
        subst h1
        have hsub : wordSearch p (isWordCh c) cs = true := by
          apply (ih (isWordCh c)).mpr
          refine ⟨u', v, h2, ?_, hnw⟩
          rcases hlast with ⟨habs, _⟩ | ⟨a, hga, hwa⟩
          · exact absurd habs (List.cons_ne_nil _ _)
          · cases u' with
            | nil =>
              have hac : c = a := by simpa using hga
              subst hac
              exact Or.inl ⟨rfl, hwa⟩
            | cons d t =>
              exact Or.inr ⟨a, by rw [List.getLast?_cons_cons] at hga; exact hga, hwa⟩
        simp [wordSearch, hsub]

theorem isDomainAvailable_iff (s : List Char) :
    isDomainAvailable s = true ↔
      ∃ p ∈ availablePhrases, ∃ u v,
        s.map Char.toLower = u ++ p ++ v ∧ LastNonWord false u ∧ HeadNonWord v := by
  unfold isDomainAvailable
  rw [List.any_eq_true]
  constructor
  · rintro ⟨p, hp, hw⟩
    exact ⟨p, hp, (wordSearch_iff p _ false).mp hw⟩
  · rintro ⟨p, hp, u, v, h1, h2, h3⟩
    exact ⟨p, hp, (wordSearch_iff p _ false).mpr ⟨u, v, h1, h2, h3⟩⟩

/-- C7: `isDomainAvailable s` is true iff the lower-cased text contains one
of the four phrases of `availableRE`, delimited on the left by the start of
the text or a non-word character and on the right by the end of the text or
a non-word character (RE2 `\b` word boundaries, so no match inside another
word); the match is case-insensitive: the concrete responses of the spec
evaluate as claimed. -/
theorem c7_isDomainAvailable_spec :
    (∀ s : List Char, isDomainAvailable s = true ↔
      ∃ p ∈ availablePhrases, ∃ u v,
        s.map Char.toLower = u ++ p ++ v ∧ LastNonWord false u ∧ HeadNonWord v) ∧
    isDomainAvailable (("Domain Name: FOO.COM\nNo match for FOO.COM").data) = true ∧
    isDomainAvailable (("Domain Name: FOO.COM\nRegistrar: Example").data) = false :=
  ⟨isDomainAvailable_iff, by decide, by decide⟩

/-- Witness for C7: the characterization applied to a response containing
"No match for", yielding its boundary decomposition. -/
theorem c7_isDomainAvailable_spec_witness :
    ∃ p ∈ availablePhrases, ∃ u v,
      ((("No match for x").data).map Char.toLower = u ++ p ++ v ∧
        LastNonWord false u ∧ HeadNonWord v) :=
  (c7_isDomainAvailable_spec.1 (("No match for x").data)).mp (by decide)

end Chkdomain
